import Mathlib

/-!
Verification development for `scripts/gzip_web_files.py` (LUME repository).

The script is a build-time hook: it walks the `data/` directory, and for every
file whose extension lies in a fixed allow-set it writes a gzip-compressed
sibling at `<path>.gz`, skipping files whose artifact is already strictly
newer than the source.

Shallow embedding choices:
* paths are `List Char`; `pathNameL`, `pathSuffixL` and `withSuffixL` model
  `pathlib.Path.name`, `.suffix` and `.with_suffix` for POSIX paths;
* the filesystem store is an association list from paths to file data
  (content bytes and modification time); `statOf` models `stat` / `exists` /
  reading; the directory listing produced by `rglob` is a list of
  (path, is-file-flag) pairs fixed at the start of the run;
* gzip itself is external library code, so compression is a parameter
  `compress : List Nat → List Nat`; round-trip claims assume a decompressor
  inverting it, which is the gzip library contract;
* I/O failures are injected through a `bad` set of paths whose open fails;
  the run carries an error flag: once set, no further entry is processed,
  mirroring an uncaught Python exception propagating out of the loop;
* each artifact written during a run gets modification time `now`.
-/

namespace Lume

/-- Bytes and modification time of one file on disk. -/
structure FileData where
  content : List Nat
  mtime : Int
deriving DecidableEq, Repr

/-- One line printed by the script. -/
inductive Line where
  | warnMissing : Line
  | fileLine : List Char → Nat → Nat → Rat → Line
  | summary : Nat → Int → Line
  | allCurrent : Line
deriving DecidableEq

/-- Filesystem state seen by a run: whether `data/` exists, the `rglob`
listing (path, is-file flag), the file store, and the paths whose open
raises an I/O error. -/
structure FS where
  dirExists : Bool
  listing : List (List Char × Bool)
  store : List (List Char × FileData)
  bad : List (List Char)

/-- Loop state: the store plus the printed lines and the two counters
`files_compressed` and `total_saved`, and the error flag. -/
structure St where
  store : List (List Char × FileData)
  out : List Line
  nCompressed : Nat
  totalSaved : Int
  err : Bool

/-- Result of a run: final store, printed lines, and whether an exception
escaped. -/
structure Outcome where
  store : List (List Char × FileData)
  out : List Line
  err : Bool

/-- Lookup of a path in the store; models `stat` / `exists()` / reading. -/
def statOf (p : List Char) : List (List Char × FileData) → Option FileData
  | [] => none
  | (k, v) :: t => if k = p then some v else statOf p t

/-- Reversed final component of a POSIX path (helper for `.name`). -/
def revName (p : List Char) : List Char :=
  p.reverse.takeWhile (fun c => c ≠ '/')

/-- Python `pathlib.Path.name`: the final path component. -/
def pathNameL (p : List Char) : List Char :=
  (revName p).reverse

/-- Python `pathlib.Path.suffix`: the extension of the final component, with the
dot; empty when the name has no dot in an interior position.  Writing
`k` for the number of characters after the last dot of the (reversed)
name, the dot sits at interior index `len - 1 - k` exactly when
`0 < k ∧ k + 1 < len`. -/
def pathSuffixL (p : List Char) : List Char :=
  if 0 < ((revName p).takeWhile (fun c => c ≠ '.')).length ∧
      ((revName p).takeWhile (fun c => c ≠ '.')).length + 1 < (revName p).length then
    ((revName p).take (((revName p).takeWhile (fun c => c ≠ '.')).length + 1)).reverse
  else []

/-- Python `pathlib.Path.with_suffix s`: replace the suffix of the final component
by `s` (append `s` when there is no suffix). -/
def withSuffixL (p s : List Char) : List Char :=
  if pathSuffixL p = [] then
    (p.reverse.dropWhile (fun c => c ≠ '/')).reverse ++ ((revName p).reverse ++ s)
  else
    (p.reverse.dropWhile (fun c => c ≠ '/')).reverse ++
      ((revName p).reverse.take ((revName p).reverse.length - (pathSuffixL p).length) ++ s)

/-- The characters of `".gz"`. -/
def gzE : List Char := ['.', 'g', 'z']

/-- Line 27: `gz_path = file_path.with_suffix(file_path.suffix + ".gz")`. -/
def gzPathL (p : List Char) : List Char :=
  withSuffixL p (pathSuffixL p ++ gzE)

/-- Line 20: the allow-set of extensions. -/
def extensions : List (List Char) :=
  [['.', 'h', 't', 'm', 'l'], ['.', 'c', 's', 's'], ['.', 'j', 's'],
   ['.', 'j', 's', 'o', 'n'], ['.', 's', 'v', 'g'], ['.', 'x', 'm', 'l']]

/-- Line 40: `saved = original_size - compressed_size` for one file. -/
def savedOf (compress : List Nat → List Nat) (src : FileData) : Int :=
  (src.content.length : Int) - ((compress src.content).length : Int)

/-- Line 44: `percent = (saved / original_size * 100) if original_size > 0 else 0`. -/
def percentOf (compress : List Nat → List Nat) (src : FileData) : Rat :=
  if 0 < src.content.length then
    ((savedOf compress src : Rat) / (src.content.length : Rat)) * 100
  else 0

/-- Line 45: the per-file report line. -/
def lineOf (compress : List Nat → List Nat) (p : List Char) (src : FileData) : Line :=
  Line.fileLine (pathNameL p) src.content.length (compress src.content).length
    (percentOf compress src)

/-- Lines 33-45: stat the source, open source and artifact (an I/O error on
either propagates), write the compressed bytes, update counters, print. -/
def stepWrite (compress : List Nat → List Nat) (now : Int) (bad : List (List Char))
    (s : St) (p gz : List Char) (src : FileData) : St :=
  if p ∈ bad ∨ gz ∈ bad then { s with err := true }
  else
    { store := (gz, ⟨compress src.content, now⟩) :: s.store
      out := s.out ++ [lineOf compress p src]
      nCompressed := s.nCompressed + 1
      totalSaved := s.totalSaved + savedOf compress src
      err := false }

/-- Lines 26-45: the body of the `rglob` loop for one directory entry.
An entry is processed only when no exception is pending, it is a file and
its suffix is in the allow-set; the freshness check of line 30 skips it
when the artifact's mtime is strictly greater than the source's. -/
def stepEntry (compress : List Nat → List Nat) (now : Int) (bad : List (List Char))
    (s : St) (e : List Char × Bool) : St :=
  if s.err then s
  else if e.2 = true ∧ pathSuffixL e.1 ∈ extensions then
    match statOf e.1 s.store with
    | none => { s with err := true }
    | some src =>
      match statOf (gzPathL e.1) s.store with
      | some g =>
        if g.mtime > src.mtime then s
        else stepWrite compress now bad s e.1 (gzPathL e.1) src
      | none => stepWrite compress now bad s e.1 (gzPathL e.1) src
  else s

/-- Loop state at entry of the `rglob` loop: the initial store, no output,
zeroed counters, no pending exception. -/
def initSt (fs : FS) : St :=
  { store := fs.store, out := [], nCompressed := 0, totalSaved := 0, err := false }

/-- Lines 25-45: the `rglob` loop, folded over the listing from the state
holding the initial store, no output and zeroed counters. -/
def runFold (compress : List Nat → List Nat) (now : Int) (fs : FS) : St :=
  fs.listing.foldl (stepEntry compress now fs.bad) (initSt fs)

/-- The whole function `gzip_web_files` (lines 11-50): warn and return when
`data/` is missing, otherwise run the loop over the listing and print the
summary line (the summary is not reached when an exception escaped). -/
def gzip_web_files (compress : List Nat → List Nat) (now : Int) (fs : FS) : Outcome :=
  if fs.dirExists = false then
    { store := fs.store, out := [Line.warnMissing], err := false }
  else
    if (runFold compress now fs).err then
      { store := (runFold compress now fs).store, out := (runFold compress now fs).out
        err := true }
    else if 0 < (runFold compress now fs).nCompressed then
      { store := (runFold compress now fs).store
        out := (runFold compress now fs).out
          ++ [Line.summary (runFold compress now fs).nCompressed
                (runFold compress now fs).totalSaved]
        err := false }
    else
      { store := (runFold compress now fs).store
        out := (runFold compress now fs).out ++ [Line.allCurrent], err := false }

/-- The freshness check of line 30 as a boolean on a store. -/
def isSkip (store : List (List Char × FileData)) (p : List Char) (src : FileData) : Bool :=
  match statOf (gzPathL p) store with
  | some g => decide (g.mtime > src.mtime)
  | none => false

/-- Well-formedness of a listing against a store: every listed file that is
eligible for compression is present in the store (its `stat` succeeds). -/
def WFStore (store : List (List Char × FileData)) (l : List (List Char × Bool)) : Prop :=
  ∀ q ∈ l, q.2 = true → pathSuffixL q.1 ∈ extensions → (statOf q.1 store).isSome

/-! ### Concrete fixtures used to instantiate the general theorems -/

/-- The identity as a stand-in compressor for concrete evaluations. -/
def idC : List Nat → List Nat := fun b => b

/-- The path `a.css`. -/
def aCss : List Char := ['a', '.', 'c', 's', 's']

/-- The path `a.css.gz`. -/
def aCssGz : List Char := aCss ++ gzE

/-- A tree holding one eligible file `a.css` with no artifact yet. -/
def fsA : FS :=
  { dirExists := true, listing := [(aCss, true)],
    store := [(aCss, ⟨[1, 2, 3], 0⟩)], bad := [] }

/-- Tree holding `a.css` with an artifact strictly newer than it. -/
def fsSkip : FS :=
  { dirExists := true, listing := [(aCss, true)],
    store := [(aCss, ⟨[1], 0⟩), (aCssGz, ⟨[7, 7], 5⟩)], bad := [] }

/-- Tree holding `a.css` modified after its artifact. -/
def fsStale : FS :=
  { dirExists := true, listing := [(aCss, true)],
    store := [(aCss, ⟨[4], 5⟩), (aCssGz, ⟨[7, 7], 0⟩)], bad := [] }

/-- Tree holding `a.css` and its artifact with exactly equal modification times. -/
def fsEq : FS :=
  { dirExists := true, listing := [(aCss, true)],
    store := [(aCss, ⟨[4], 5⟩), (aCssGz, ⟨[7, 7], 5⟩)], bad := [] }

/-- A tree where the stale artifact `a.css.gz` is itself listed in the
directory walk. -/
def fsTouch : FS :=
  { dirExists := true, listing := [(aCss, true), (aCssGz, true)],
    store := [(aCss, ⟨[1], 5⟩), (aCssGz, ⟨[9, 9], 0⟩)], bad := [] }

/-- A state whose root directory is missing. -/
def fsNoDir : FS :=
  { dirExists := false, listing := [], store := [], bad := [] }

/-- A tree holding one eligible zero-byte file. -/
def fsZero : FS :=
  { dirExists := true, listing := [(aCss, true)],
    store := [(aCss, ⟨[], 0⟩)], bad := [] }

/-- A tree where opening `a.css` raises an I/O error. -/
def fsErr : FS :=
  { dirExists := true, listing := [(aCss, true)],
    store := [(aCss, ⟨[1], 0⟩)], bad := [aCss] }

/-! ### Path lemmas -/

theorem take_rev_split (r : List Char) (j : Nat) (hj : j ≤ r.length) :
    r.reverse.take (r.reverse.length - j) ++ (r.take j).reverse = r.reverse := by
  have h1 : r.reverse = (r.drop j).reverse ++ (r.take j).reverse := by
    rw [← List.reverse_append, List.take_append_drop]
  rw [h1]
  have h2 : (((r.drop j).reverse ++ (r.take j).reverse).length - j)
      = ((r.drop j).reverse).length := by
    simp only [List.length_append, List.length_reverse, List.length_take, List.length_drop]
    omega
  rw [h2, List.take_left]

/-- The directory part and the name recompose the path. -/
theorem dir_append_name (p : List Char) :
    (p.reverse.dropWhile (fun c => c ≠ '/')).reverse ++ (revName p).reverse = p := by
  rw [revName, ← List.reverse_append, List.takeWhile_append_dropWhile, List.reverse_reverse]

/-- A nonempty suffix splits off the end of the name. -/
theorem suffix_split (p : List Char) (h : pathSuffixL p ≠ []) :
    (revName p).reverse.take ((revName p).reverse.length - (pathSuffixL p).length)
      ++ pathSuffixL p = (revName p).reverse := by
  rw [pathSuffixL] at h ⊢
  split at h
  case isTrue hc =>
    rw [if_pos hc]
    have hk1 : ((revName p).takeWhile (fun c => c ≠ '.')).length + 1 ≤ (revName p).length :=
      le_of_lt hc.2
    have hlen : (((revName p).take
        (((revName p).takeWhile (fun c => c ≠ '.')).length + 1)).reverse).length
        = ((revName p).takeWhile (fun c => c ≠ '.')).length + 1 := by
      simp only [List.length_reverse, List.length_take]
      omega
    rw [hlen]
    exact take_rev_split (revName p) _ hk1
  case isFalse hc => exact absurd rfl h

/-- For an eligible file, line 27 computes exactly the source path with
`".gz"` appended. -/
theorem gzPath_eq (p : List Char) (h : pathSuffixL p ∈ extensions) :
    gzPathL p = p ++ gzE := by
  have hne : pathSuffixL p ≠ [] := by
    intro h0
    rw [h0] at h
    exact absurd h (by decide)
  have h1 := suffix_split p hne
  have h2 := dir_append_name p
  rw [gzPathL, withSuffixL, if_neg hne]
  simp only [← List.append_assoc]
  rw [List.append_assoc _ _ (pathSuffixL p), h1, h2]

/-- The name of `q ++ ".gz"` ends with the three characters `z`, `g`, `.`
(in reversed order) followed by the reversed name of `q`. -/
theorem revName_append_gz (q : List Char) :
    revName (q ++ gzE) = 'z' :: 'g' :: '.' :: revName q := by
  rw [revName, revName, gzE, List.reverse_append]
  rfl

/-- Appending `".gz"` gives a path whose suffix is `".gz"` or empty, never
one of the allow-set extensions. -/
theorem pathSuffix_append_gz_not_mem (q : List Char) :
    pathSuffixL (q ++ gzE) ∉ extensions := by
  rw [pathSuffixL, revName_append_gz]
  have htw : (('z' :: 'g' :: '.' :: revName q).takeWhile (fun c => c ≠ '.')) = ['z', 'g'] := rfl
  rw [htw]
  by_cases h0 : 0 < (revName q).length
  · rw [if_pos ⟨by norm_num, by simp only [List.length_cons, List.length_nil]; omega⟩]
    have ht : ('z' :: 'g' :: '.' :: revName q).take (['z', 'g'].length + 1) = ['z', 'g', '.'] := rfl
    rw [ht]
    decide
  · rw [if_neg]
    · decide
    · intro hc
      simp only [List.length_cons] at hc
      omega

/-- An eligible path is never an artifact path. -/
theorem elig_ne_append_gz (w q : List Char) (hw : pathSuffixL w ∈ extensions) :
    w ≠ q ++ gzE :=
  fun h => absurd (h ▸ hw) (pathSuffix_append_gz_not_mem q)

/-- Distinct eligible sources have distinct artifact paths. -/
theorem gzPathL_inj (p q : List Char) (hp : pathSuffixL p ∈ extensions)
    (hq : pathSuffixL q ∈ extensions) (h : gzPathL p = gzPathL q) : p = q := by
  rw [gzPath_eq p hp, gzPath_eq q hq] at h
  exact List.append_cancel_right h

/-! ### Store lemmas -/

theorem statOf_cons (p k : List Char) (v : FileData) (s : List (List Char × FileData)) :
    statOf p ((k, v) :: s) = if k = p then some v else statOf p s := rfl

theorem statOf_isSome_cons (p k : List Char) (v : FileData) (s : List (List Char × FileData))
    (h : (statOf p s).isSome) : (statOf p ((k, v) :: s)).isSome := by
  rw [statOf_cons]
  split
  · rfl
  · exact h

/-- Each loop iteration either leaves store and output alone, or appends the
artifact of an eligible listed file to the store and one report line to the
output. -/
theorem stepEntry_shape (c : List Nat → List Nat) (n : Int) (bad : List (List Char))
    (s : St) (e : List Char × Bool) :
    ((stepEntry c n bad s e).store = s.store ∧ (stepEntry c n bad s e).out = s.out) ∨
    (∃ src, e.2 = true ∧ pathSuffixL e.1 ∈ extensions ∧ statOf e.1 s.store = some src ∧
      (stepEntry c n bad s e).store = (gzPathL e.1, ⟨c src.content, n⟩) :: s.store ∧
      (stepEntry c n bad s e).out = s.out ++ [lineOf c e.1 src]) := by
  unfold stepEntry
  split
  · exact Or.inl ⟨rfl, rfl⟩
  split
  next helig =>
    split
    next => exact Or.inl ⟨rfl, rfl⟩
    next src hsrc =>
      split
      next g hg =>
        split
        next => exact Or.inl ⟨rfl, rfl⟩
        next =>
          unfold stepWrite
          split
          · exact Or.inl ⟨rfl, rfl⟩
          · exact Or.inr ⟨src, helig.1, helig.2, hsrc, rfl, rfl⟩
      next hgz =>
        unfold stepWrite
        split
        · exact Or.inl ⟨rfl, rfl⟩
        · exact Or.inr ⟨src, helig.1, helig.2, hsrc, rfl, rfl⟩
  next => exact Or.inl ⟨rfl, rfl⟩

/-- Once the error flag is set, the loop body does nothing: the exception
has escaped the loop. -/
theorem stepEntry_of_err (c : List Nat → List Nat) (n : Int) (bad : List (List Char))
    (s : St) (e : List Char × Bool) (h : s.err = true) : stepEntry c n bad s e = s := by
  rw [stepEntry, if_pos h]

theorem fold_of_err (c : List Nat → List Nat) (n : Int) (bad : List (List Char))
    (l : List (List Char × Bool)) (s : St) (h : s.err = true) :
    l.foldl (stepEntry c n bad) s = s := by
  induction l with
  | nil => rfl
  | cons e t ih => rw [List.foldl_cons, stepEntry_of_err c n bad s e h]; exact ih

/-- Any path that is not the artifact path of some eligible listed file
keeps its store binding across the loop. -/
theorem fold_stat_stable (c : List Nat → List Nat) (n : Int) (bad : List (List Char))
    (l : List (List Char × Bool)) (s : St) (w : List Char)
    (h : ∀ q, (q, true) ∈ l → pathSuffixL q ∈ extensions → gzPathL q ≠ w) :
    statOf w ((l.foldl (stepEntry c n bad) s).store) = statOf w s.store := by
  induction l generalizing s with
  | nil => rfl
  | cons e t ih =>
    rw [List.foldl_cons]
    have ht : ∀ q, (q, true) ∈ t → pathSuffixL q ∈ extensions → gzPathL q ≠ w :=
      fun q hq => h q (List.mem_cons_of_mem e hq)
    rw [ih (stepEntry c n bad s e) ht]
    rcases stepEntry_shape c n bad s e with ⟨h1, _⟩ | ⟨src, he2, helig, _, h1, _⟩
    · rw [h1]
    · rw [h1, statOf_cons, if_neg]
      have hmem : (e.1, true) ∈ e :: t := by
        have he : (e.1, true) = e := by rw [← he2]
        rw [he]
        exact List.mem_cons_self _ _
      exact h e.1 hmem helig

/-- Printed lines are never retracted. -/
theorem fold_out_mono (c : List Nat → List Nat) (n : Int) (bad : List (List Char))
    (l : List (List Char × Bool)) (s : St) (ln : Line) (h : ln ∈ s.out) :
    ln ∈ (l.foldl (stepEntry c n bad) s).out := by
  induction l generalizing s with
  | nil => exact h
  | cons e t ih =>
    rw [List.foldl_cons]
    apply ih
    rcases stepEntry_shape c n bad s e with ⟨_, h2⟩ | ⟨src, _, _, _, _, h2⟩
    · rw [h2]; exact h
    · rw [h2]; exact List.mem_append_left _ h

/-- With no injected I/O error and a well-formed listing, one iteration
never sets the error flag. -/
theorem stepEntry_err_false (c : List Nat → List Nat) (n : Int) (s : St)
    (e : List Char × Bool) (hs : s.err = false)
    (hwf : e.2 = true → pathSuffixL e.1 ∈ extensions → (statOf e.1 s.store).isSome) :
    (stepEntry c n [] s e).err = false := by
  unfold stepEntry
  split
  next herr => exact absurd herr (by simp [hs])
  split
  next helig =>
    split
    next hnone =>
      have hy := hwf helig.1 helig.2
      rw [hnone] at hy
      exact absurd hy (by simp)
    next src hsrc =>
      split
      next g hg =>
        split
        next => exact hs
        next =>
          unfold stepWrite
          split
          next hbad => exact absurd hbad (by simp)
          next => rfl
      next hgz =>
        unfold stepWrite
        split
        next hbad => exact absurd hbad (by simp)
        next => rfl
  next => exact hs

/-- A file present in the store stays present across one iteration. -/
theorem stepEntry_wf_preserved (c : List Nat → List Nat) (n : Int) (bad : List (List Char))
    (s : St) (e : List Char × Bool) (q : List Char) (h : (statOf q s.store).isSome) :
    (statOf q (stepEntry c n bad s e).store).isSome := by
  rcases stepEntry_shape c n bad s e with ⟨h1, _⟩ | ⟨src, _, _, _, h1, _⟩
  · rw [h1]; exact h
  · rw [h1]; exact statOf_isSome_cons _ _ _ _ h

/-- With no injected I/O error and a well-formed listing, the loop finishes
with the error flag unset. -/
theorem fold_err_false (c : List Nat → List Nat) (n : Int) (l : List (List Char × Bool))
    (s : St) (hs : s.err = false)
    (hwf : ∀ q ∈ l, q.2 = true → pathSuffixL q.1 ∈ extensions → (statOf q.1 s.store).isSome) :
    (l.foldl (stepEntry c n []) s).err = false := by
  induction l generalizing s with
  | nil => exact hs
  | cons e t ih =>
    rw [List.foldl_cons]
    apply ih
    · exact stepEntry_err_false c n s e hs (fun a b => hwf e (List.mem_cons_self _ _) a b)
    · intro q hq a b
      exact stepEntry_wf_preserved c n [] s e q.1 (hwf q (List.mem_cons_of_mem _ hq) a b)

theorem isSkip_congr (st1 st2 : List (List Char × FileData)) (p : List Char) (src : FileData)
    (h : statOf (gzPathL p) st1 = statOf (gzPathL p) st2) :
    isSkip st1 p src = isSkip st2 p src := by
  unfold isSkip
  rw [h]

/-- Line 30: when the artifact is strictly newer than the source, the
iteration is a no-op (`continue`). -/
theorem stepEntry_skip (c : List Nat → List Nat) (n : Int) (bad : List (List Char))
    (s : St) (p : List Char) (src g : FileData)
    (hs : s.err = false) (helig : pathSuffixL p ∈ extensions)
    (hsrc : statOf p s.store = some src)
    (hgz : statOf (gzPathL p) s.store = some g) (hgt : g.mtime > src.mtime) :
    stepEntry c n bad s (p, true) = s := by
  simp [stepEntry, hs, hsrc, hgz, hgt, helig]

/-- Lines 33-45: when the freshness check does not fire and no I/O error is
injected, the iteration writes the compressed artifact and reports. -/
theorem stepEntry_write (c : List Nat → List Nat) (n : Int) (s : St)
    (p : List Char) (src : FileData)
    (hs : s.err = false) (helig : pathSuffixL p ∈ extensions)
    (hsrc : statOf p s.store = some src)
    (hnoskip : isSkip s.store p src = false) :
    stepEntry c n [] s (p, true) =
      { store := (gzPathL p, ⟨c src.content, n⟩) :: s.store
        out := s.out ++ [lineOf c p src]
        nCompressed := s.nCompressed + 1
        totalSaved := s.totalSaved + savedOf c src
        err := false } := by
  unfold isSkip at hnoskip
  cases hgz : statOf (gzPathL p) s.store with
  | none => simp [stepEntry, stepWrite, hs, hsrc, hgz, helig]
  | some g =>
    rw [hgz] at hnoskip
    have hgt : ¬ (g.mtime > src.mtime) := by simpa using hnoskip
    simp [stepEntry, stepWrite, hs, hsrc, hgz, helig, hgt]

/-- Main loop lemma: for an eligible listed file `p` with source data `src`,
the loop finishes without error; the artifact binding of `p` ends up
unchanged when the freshness check fires against the starting store, and
equal to the fresh compression otherwise, in which case the report line for
`p` is printed.  Requires the listing to have no duplicate paths and every
eligible listed file to be present in the store. -/
theorem fold_gz (c : List Nat → List Nat) (n : Int) (l : List (List Char × Bool))
    (p : List Char) (src : FileData) (helig : pathSuffixL p ∈ extensions) :
    ∀ s : St, (p, true) ∈ l → (l.map Prod.fst).Nodup →
    (∀ q ∈ l, q.2 = true → pathSuffixL q.1 ∈ extensions → (statOf q.1 s.store).isSome) →
    s.err = false → statOf p s.store = some src →
    (l.foldl (stepEntry c n []) s).err = false ∧
    statOf (gzPathL p) ((l.foldl (stepEntry c n []) s).store) =
      (if isSkip s.store p src then statOf (gzPathL p) s.store
       else some ⟨c src.content, n⟩) ∧
    (isSkip s.store p src = false →
      lineOf c p src ∈ (l.foldl (stepEntry c n []) s).out) := by
  induction l with
  | nil => intro s hp _ _ _ _; exact absurd hp (List.not_mem_nil _)
  | cons e t ih =>
    intro s hp hnd hwf hs hsrc
    rw [List.foldl_cons]
    have hndt : (t.map Prod.fst).Nodup := by
      simp only [List.map_cons, List.nodup_cons] at hnd
      exact hnd.2
    by_cases hep : e = (p, true)
    case pos =>
      subst hep
      have hpt : p ∉ t.map Prod.fst := by
        simp only [List.map_cons, List.nodup_cons] at hnd
        exact hnd.1
      have hstab : ∀ q, (q, true) ∈ t → pathSuffixL q ∈ extensions →
          gzPathL q ≠ gzPathL p := by
        intro q hq hqe hcontra
        have hqp : q = p := gzPathL_inj q p hqe helig hcontra
        subst hqp
        exact hpt (List.mem_map_of_mem Prod.fst hq)
      cases hskip : isSkip s.store p src with
      | true =>
        have hg : ∃ g, statOf (gzPathL p) s.store = some g ∧ g.mtime > src.mtime := by
          unfold isSkip at hskip
          cases hgz : statOf (gzPathL p) s.store with
          | none => rw [hgz] at hskip; simp at hskip
          | some g =>
            rw [hgz] at hskip
            simp only [decide_eq_true_eq] at hskip
            exact ⟨g, rfl, hskip⟩
        obtain ⟨g, hgz, hgt⟩ := hg
        rw [stepEntry_skip c n [] s p src g hs helig hsrc hgz hgt]
        refine ⟨?_, ?_, ?_⟩
        · exact fold_err_false c n t s hs (fun q hq => hwf q (List.mem_cons_of_mem _ hq))
        · rw [fold_stat_stable c n [] t s (gzPathL p) hstab]
          simp [hskip]
        · intro hc
          cases hc
      | false =>
        rw [stepEntry_write c n s p src hs helig hsrc hskip]
        refine ⟨?_, ?_, ?_⟩
        · apply fold_err_false c n t _ rfl
          intro q hq a b
          exact statOf_isSome_cons _ _ _ _ (hwf q (List.mem_cons_of_mem _ hq) a b)
        · rw [fold_stat_stable c n [] t _ (gzPathL p) hstab]
          simp only [hskip, Bool.false_eq_true, if_false]
          show statOf (gzPathL p) ((gzPathL p, ⟨c src.content, n⟩) :: s.store) = _
          rw [statOf_cons, if_pos rfl]
        · intro _
          apply fold_out_mono
          show lineOf c p src ∈ s.out ++ [lineOf c p src]
          exact List.mem_append_right _ (List.mem_singleton_self _)
    case neg =>
      have hpt : (p, true) ∈ t := by
        rcases List.mem_cons.mp hp with h1 | h1
        · exact absurd h1.symm hep
        · exact h1
      have hne1 : e.1 ≠ p := by
        intro hcontra
        simp only [List.map_cons, List.nodup_cons] at hnd
        have hmem : p ∈ t.map Prod.fst := List.mem_map_of_mem Prod.fst hpt
        rw [← hcontra] at hmem
        exact hnd.1 hmem
      have hshape := stepEntry_shape c n [] s e
      have hs' : (stepEntry c n [] s e).err = false :=
        stepEntry_err_false c n s e hs (fun a b => hwf e (List.mem_cons_self _ _) a b)
      have hsrc' : statOf p (stepEntry c n [] s e).store = some src := by
        rcases hshape with ⟨h1, _⟩ | ⟨src2, he2, helig2, _, h1, _⟩
        · rw [h1]; exact hsrc
        · rw [h1, statOf_cons, if_neg, hsrc]
          rw [gzPath_eq e.1 helig2]
          intro hcontra
          exact (elig_ne_append_gz p e.1 helig) hcontra.symm
      have hgz' : statOf (gzPathL p) (stepEntry c n [] s e).store
          = statOf (gzPathL p) s.store := by
        rcases hshape with ⟨h1, _⟩ | ⟨src2, he2, helig2, _, h1, _⟩
        · rw [h1]
        · rw [h1, statOf_cons, if_neg]
          intro hcontra
          exact hne1 (gzPathL_inj e.1 p helig2 helig hcontra)
      have hwf' : ∀ q ∈ t, q.2 = true → pathSuffixL q.1 ∈ extensions →
          (statOf q.1 (stepEntry c n [] s e).store).isSome := by
        intro q hq a b
        exact stepEntry_wf_preserved c n [] s e q.1 (hwf q (List.mem_cons_of_mem _ hq) a b)
      obtain ⟨ih1, ih2, ih3⟩ := ih (stepEntry c n [] s e) hpt hndt hwf' hs' hsrc'
      rw [isSkip_congr _ _ p src hgz'] at ih2 ih3
      rw [hgz'] at ih2
      exact ⟨ih1, ih2, ih3⟩

/-! ### Run-level lemmas -/

theorem run_store_eq (c : List Nat → List Nat) (n : Int) (fs : FS)
    (hdir : fs.dirExists = true) :
    (gzip_web_files c n fs).store = (runFold c n fs).store := by
  rw [gzip_web_files, if_neg (by simp [hdir])]
  split
  · rfl
  split
  · rfl
  · rfl

theorem run_err_false (c : List Nat → List Nat) (n : Int) (fs : FS)
    (hdir : fs.dirExists = true) (h : (runFold c n fs).err = false) :
    (gzip_web_files c n fs).err = false := by
  rw [gzip_web_files, if_neg (by simp [hdir])]
  rw [if_neg (by simp [h])]
  split
  · rfl
  · rfl

theorem run_out_mem (c : List Nat → List Nat) (n : Int) (fs : FS) (ln : Line)
    (hdir : fs.dirExists = true) (h : ln ∈ (runFold c n fs).out) :
    ln ∈ (gzip_web_files c n fs).out := by
  rw [gzip_web_files, if_neg (by simp [hdir])]
  split
  · exact h
  split
  · exact List.mem_append_left _ h
  · exact List.mem_append_left _ h

/-- A file present in the store is still present after the run: the script
never deletes anything. -/
theorem fold_isSome (c : List Nat → List Nat) (n : Int) (bad : List (List Char))
    (l : List (List Char × Bool)) (s : St) (q : List Char)
    (h : (statOf q s.store).isSome) :
    (statOf q ((l.foldl (stepEntry c n bad) s).store)).isSome := by
  induction l generalizing s with
  | nil => exact h
  | cons e t ih =>
    rw [List.foldl_cons]
    exact ih _ (stepEntry_wf_preserved c n bad s e q h)

theorem run_isSome (c : List Nat → List Nat) (n : Int) (fs : FS) (q : List Char)
    (h : (statOf q fs.store).isSome) :
    (statOf q (gzip_web_files c n fs).store).isSome := by
  by_cases hdir : fs.dirExists = true
  · rw [run_store_eq c n fs hdir, runFold]
    exact fold_isSome c n fs.bad fs.listing _ q h
  · rw [gzip_web_files, if_pos (by simpa using hdir)]
    exact h

/-- Any path that is not the artifact path of an eligible listed file keeps
its store binding across the whole run. -/
theorem run_stat_stable (c : List Nat → List Nat) (n : Int) (fs : FS) (w : List Char)
    (h : ∀ q, (q, true) ∈ fs.listing → pathSuffixL q ∈ extensions → gzPathL q ≠ w) :
    statOf w (gzip_web_files c n fs).store = statOf w fs.store := by
  by_cases hdir : fs.dirExists = true
  · rw [run_store_eq c n fs hdir, runFold]
    exact fold_stat_stable c n fs.bad fs.listing _ w h
  · rw [gzip_web_files, if_pos (by simpa using hdir)]

/-- Behaviour of the run at an eligible listed file `p` (no injected I/O
errors, duplicate-free listing, well-formed store): the run does not raise;
the artifact binding of `p` is unchanged when the freshness check fires,
and is the fresh compression stamped `now` otherwise, in which case `p`'s
report line is printed. -/
theorem run_gz (c : List Nat → List Nat) (n : Int) (fs : FS) (p : List Char) (src : FileData)
    (hdir : fs.dirExists = true) (hbad : fs.bad = [])
    (hp : (p, true) ∈ fs.listing) (hnd : (fs.listing.map Prod.fst).Nodup)
    (helig : pathSuffixL p ∈ extensions)
    (hwf : WFStore fs.store fs.listing)
    (hsrc : statOf p fs.store = some src) :
    (gzip_web_files c n fs).err = false ∧
    statOf (gzPathL p) (gzip_web_files c n fs).store =
      (if isSkip fs.store p src then statOf (gzPathL p) fs.store
       else some ⟨c src.content, n⟩) ∧
    (isSkip fs.store p src = false → lineOf c p src ∈ (gzip_web_files c n fs).out) := by
  have hmain := fold_gz c n fs.listing p src helig
    { store := fs.store, out := [], nCompressed := 0, totalSaved := 0, err := false }
    hp hnd hwf rfl hsrc
  have hrf : runFold c n fs = fs.listing.foldl (stepEntry c n [])
      { store := fs.store, out := [], nCompressed := 0, totalSaved := 0, err := false } := by
    rw [runFold, hbad, initSt]
  refine ⟨?_, ?_, ?_⟩
  · apply run_err_false c n fs hdir
    rw [hrf]
    exact hmain.1
  · rw [run_store_eq c n fs hdir, hrf]
    exact hmain.2.1
  · intro hns
    apply run_out_mem c n fs _ hdir
    rw [hrf]
    exact hmain.2.2 hns

/-- Lines 35-37 with an injected I/O failure: the open raises, the loop
state keeps everything written so far and the error flag is set. -/
theorem stepEntry_bad (c : List Nat → List Nat) (n : Int) (bad : List (List Char))
    (s : St) (p : List Char) (src : FileData)
    (hs : s.err = false) (helig : pathSuffixL p ∈ extensions)
    (hsrc : statOf p s.store = some src)
    (hnoskip : isSkip s.store p src = false)
    (hbad : p ∈ bad) :
    stepEntry c n bad s (p, true) = { s with err := true } := by
  unfold isSkip at hnoskip
  cases hgz : statOf (gzPathL p) s.store with
  | none => simp [stepEntry, stepWrite, hs, hsrc, hgz, helig, hbad]
  | some g =>
    rw [hgz] at hnoskip
    have hgt : ¬(g.mtime > src.mtime) := by simpa using hnoskip
    simp [stepEntry, stepWrite, hs, hsrc, hgz, helig, hgt, hbad]

/-! ### Claims -/

/-- Claim C1: for every listed file whose extension is in the allow-set and that
the freshness check does not skip, after the run an artifact exists at the
source path plus `".gz"` whose decompressed content is byte-for-byte the
source content (assuming the decompressor inverts the compressor, which is
the gzip library contract). -/
theorem C1_roundtrip (compress decompress : List Nat → List Nat)
    (hinv : ∀ b, decompress (compress b) = b)
    (now : Int) (fs : FS) (p : List Char) (src : FileData)
    (hdir : fs.dirExists = true) (hbad : fs.bad = [])
    (hp : (p, true) ∈ fs.listing) (hnd : (fs.listing.map Prod.fst).Nodup)
    (helig : pathSuffixL p ∈ extensions)
    (hwf : WFStore fs.store fs.listing)
    (hsrc : statOf p fs.store = some src)
    (hfresh : isSkip fs.store p src = false) :
    ∃ d, statOf (p ++ gzE) (gzip_web_files compress now fs).store = some d ∧
      decompress d.content = src.content := by
  have h := (run_gz compress now fs p src hdir hbad hp hnd helig hwf hsrc).2.1
  rw [hfresh, if_neg Bool.false_ne_true, gzPath_eq p helig] at h
  exact ⟨⟨compress src.content, now⟩, h, hinv src.content⟩

theorem C1_roundtrip_witness :
    ∃ d, statOf (aCss ++ gzE) (gzip_web_files idC 7 fsA).store = some d ∧
      idC d.content = [1, 2, 3] :=
  C1_roundtrip idC idC (fun _ => rfl) 7 fsA aCss ⟨[1, 2, 3], 0⟩ rfl rfl
    (by decide) (by decide) (by decide) (by unfold WFStore; decide) (by decide) (by decide)

/-- Claim C2: when the artifact exists and is strictly newer than the source, the
run leaves the artifact binding (bytes and mtime) unchanged, and re-running
on the resulting state leaves it unchanged again. -/
theorem C2_skip_idempotent (compress : List Nat → List Nat) (now now2 : Int)
    (fs : FS) (p : List Char) (src g : FileData)
    (hdir : fs.dirExists = true) (hbad : fs.bad = [])
    (hp : (p, true) ∈ fs.listing) (hnd : (fs.listing.map Prod.fst).Nodup)
    (helig : pathSuffixL p ∈ extensions)
    (hwf : WFStore fs.store fs.listing)
    (hsrc : statOf p fs.store = some src)
    (hgz : statOf (p ++ gzE) fs.store = some g)
    (hmt : g.mtime > src.mtime) :
    statOf (p ++ gzE) (gzip_web_files compress now fs).store = some g ∧
    statOf (p ++ gzE) (gzip_web_files compress now2
      { dirExists := fs.dirExists, listing := fs.listing,
        store := (gzip_web_files compress now fs).store, bad := fs.bad }).store = some g := by
  have hgz' : statOf (gzPathL p) fs.store = some g := by
    rw [gzPath_eq p helig]; exact hgz
  have hskip : isSkip fs.store p src = true := by
    unfold isSkip; rw [hgz']; simp [hmt]
  have h1 := (run_gz compress now fs p src hdir hbad hp hnd helig hwf hsrc).2.1
  rw [hskip, if_pos rfl, hgz'] at h1
  have hc1 : statOf (p ++ gzE) (gzip_web_files compress now fs).store = some g := by
    rw [← gzPath_eq p helig]; exact h1
  refine ⟨hc1, ?_⟩
  have hwf1 : WFStore (gzip_web_files compress now fs).store fs.listing := by
    intro q hq a b
    exact run_isSome compress now fs q.1 (hwf q hq a b)
  have hstab : ∀ q, (q, true) ∈ fs.listing → pathSuffixL q ∈ extensions → gzPathL q ≠ p := by
    intro q hq hqe hcontra
    exact elig_ne_append_gz p q helig (hcontra.symm.trans (gzPath_eq q hqe))
  have hsrc1 : statOf p (gzip_web_files compress now fs).store = some src := by
    rw [run_stat_stable compress now fs p hstab]
    exact hsrc
  have hskip1 : isSkip (gzip_web_files compress now fs).store p src = true := by
    unfold isSkip; rw [h1]; simp [hmt]
  have h2 := (run_gz compress now2
      { dirExists := fs.dirExists, listing := fs.listing,
        store := (gzip_web_files compress now fs).store, bad := fs.bad }
      p src hdir hbad hp hnd helig hwf1 hsrc1).2.1
  simp only [hskip1, if_true] at h2
  rw [h1] at h2
  rw [← gzPath_eq p helig]
  exact h2

theorem C2_skip_idempotent_witness :
    statOf (aCss ++ gzE) (gzip_web_files idC 8 fsSkip).store = some ⟨[7, 7], 5⟩ ∧
    statOf (aCss ++ gzE) (gzip_web_files idC 9
      { dirExists := fsSkip.dirExists, listing := fsSkip.listing,
        store := (gzip_web_files idC 8 fsSkip).store, bad := fsSkip.bad }).store
      = some ⟨[7, 7], 5⟩ :=
  C2_skip_idempotent idC 8 9 fsSkip aCss ⟨[1], 0⟩ ⟨[7, 7], 5⟩ rfl rfl (by decide)
    (by decide) (by decide) (by unfold WFStore; decide) (by decide) (by decide) (by decide)

/-- Claim C3: when the source was modified after its existing artifact, the run
regenerates the artifact: its binding becomes the fresh compression of the
current source bytes, stamped `now`. -/
theorem C3_regenerate (compress : List Nat → List Nat) (now : Int)
    (fs : FS) (p : List Char) (src g : FileData)
    (hdir : fs.dirExists = true) (hbad : fs.bad = [])
    (hp : (p, true) ∈ fs.listing) (hnd : (fs.listing.map Prod.fst).Nodup)
    (helig : pathSuffixL p ∈ extensions)
    (hwf : WFStore fs.store fs.listing)
    (hsrc : statOf p fs.store = some src)
    (hgz : statOf (p ++ gzE) fs.store = some g)
    (hmt : src.mtime > g.mtime) :
    statOf (p ++ gzE) (gzip_web_files compress now fs).store =
      some ⟨compress src.content, now⟩ := by
  have hgz' : statOf (gzPathL p) fs.store = some g := by
    rw [gzPath_eq p helig]; exact hgz
  have hskip : isSkip fs.store p src = false := by
    unfold isSkip
    rw [hgz']
    simp only [decide_eq_false_iff_not]
    exact fun hcontra => absurd hmt (lt_asymm hcontra)
  have h := (run_gz compress now fs p src hdir hbad hp hnd helig hwf hsrc).2.1
  rw [hskip, if_neg Bool.false_ne_true, gzPath_eq p helig] at h
  exact h

theorem C3_regenerate_witness :
    statOf (aCss ++ gzE) (gzip_web_files idC 11 fsStale).store = some ⟨idC [4], 11⟩ :=
  C3_regenerate idC 11 fsStale aCss ⟨[4], 5⟩ ⟨[7, 7], 0⟩ rfl rfl (by decide) (by decide)
    (by decide) (by unfold WFStore; decide) (by decide) (by decide) (by decide)

/-- Claim C10: when the source and its artifact have exactly equal modification
times, the strict comparison of line 30 does not fire and the artifact is
regenerated. -/
theorem C10_equal_mtime_regenerates (compress : List Nat → List Nat) (now : Int)
    (fs : FS) (p : List Char) (src g : FileData)
    (hdir : fs.dirExists = true) (hbad : fs.bad = [])
    (hp : (p, true) ∈ fs.listing) (hnd : (fs.listing.map Prod.fst).Nodup)
    (helig : pathSuffixL p ∈ extensions)
    (hwf : WFStore fs.store fs.listing)
    (hsrc : statOf p fs.store = some src)
    (hgz : statOf (p ++ gzE) fs.store = some g)
    (hmt : g.mtime = src.mtime) :
    statOf (p ++ gzE) (gzip_web_files compress now fs).store =
      some ⟨compress src.content, now⟩ := by
  have hgz' : statOf (gzPathL p) fs.store = some g := by
    rw [gzPath_eq p helig]; exact hgz
  have hskip : isSkip fs.store p src = false := by
    unfold isSkip
    rw [hgz']
    simp only [decide_eq_false_iff_not]
    intro hcontra
    rw [hmt] at hcontra
    exact absurd hcontra (lt_irrefl _)
  have h := (run_gz compress now fs p src hdir hbad hp hnd helig hwf hsrc).2.1
  rw [hskip, if_neg Bool.false_ne_true, gzPath_eq p helig] at h
  exact h

theorem C10_equal_mtime_regenerates_witness :
    statOf (aCss ++ gzE) (gzip_web_files idC 12 fsEq).store = some ⟨idC [4], 12⟩ :=
  C10_equal_mtime_regenerates idC 12 fsEq aCss ⟨[4], 5⟩ ⟨[7, 7], 5⟩ rfl rfl (by decide)
    (by decide) (by decide) (by unfold WFStore; decide) (by decide) (by decide) (by decide)

/-- Claim C6: a zero-byte eligible source produces an artifact without raising,
and the guard of line 44 makes the reported savings percentage 0 rather
than a division-by-zero fault. -/
theorem C6_zero_byte (compress : List Nat → List Nat) (now : Int) (fs : FS)
    (p : List Char) (mt : Int)
    (hdir : fs.dirExists = true) (hbad : fs.bad = [])
    (hp : (p, true) ∈ fs.listing) (hnd : (fs.listing.map Prod.fst).Nodup)
    (helig : pathSuffixL p ∈ extensions)
    (hwf : WFStore fs.store fs.listing)
    (hsrc : statOf p fs.store = some ⟨[], mt⟩)
    (hfresh : isSkip fs.store p ⟨[], mt⟩ = false) :
    (gzip_web_files compress now fs).err = false ∧
    statOf (p ++ gzE) (gzip_web_files compress now fs).store = some ⟨compress [], now⟩ ∧
    Line.fileLine (pathNameL p) 0 (compress []).length 0
      ∈ (gzip_web_files compress now fs).out := by
  obtain ⟨h1, h2, h3⟩ := run_gz compress now fs p ⟨[], mt⟩ hdir hbad hp hnd helig hwf hsrc
  rw [hfresh, if_neg Bool.false_ne_true, gzPath_eq p helig] at h2
  refine ⟨h1, h2, ?_⟩
  have hline := h3 hfresh
  have heq : lineOf compress p ⟨[], mt⟩
      = Line.fileLine (pathNameL p) 0 (compress []).length 0 := rfl
  rw [heq] at hline
  exact hline

theorem C6_zero_byte_witness :
    (gzip_web_files idC 3 fsZero).err = false ∧
    statOf (aCss ++ gzE) (gzip_web_files idC 3 fsZero).store = some ⟨idC [], 3⟩ ∧
    Line.fileLine (pathNameL aCss) 0 (idC []).length 0 ∈ (gzip_web_files idC 3 fsZero).out :=
  C6_zero_byte idC 3 fsZero aCss 0 rfl rfl (by decide) (by decide) (by decide)
    (by unfold WFStore; decide) (by decide) (by decide)

/-- Claim C7: an I/O failure while processing an eligible file is not caught: the
run reports the error, entries after the failing one are never processed
(no retry), and everything written before the failure stays on disk (no
cleanup or rollback). -/
theorem C7_error_propagates (compress : List Nat → List Nat) (now : Int) (fs : FS)
    (l1 l2 : List (List Char × Bool)) (p : List Char) (src : FileData)
    (hdir : fs.dirExists = true)
    (hlist : fs.listing = l1 ++ (p, true) :: l2)
    (helig : pathSuffixL p ∈ extensions)
    (hbadp : p ∈ fs.bad)
    (hpre : (l1.foldl (stepEntry compress now fs.bad) (initSt fs)).err = false)
    (hsrc : statOf p (l1.foldl (stepEntry compress now fs.bad) (initSt fs)).store = some src)
    (hnoskip : isSkip (l1.foldl (stepEntry compress now fs.bad) (initSt fs)).store p src
      = false) :
    (gzip_web_files compress now fs).err = true ∧
    (gzip_web_files compress now fs).store
      = (l1.foldl (stepEntry compress now fs.bad) (initSt fs)).store ∧
    (gzip_web_files compress now fs).out
      = (l1.foldl (stepEntry compress now fs.bad) (initSt fs)).out := by
  have hrun : runFold compress now fs
      = { l1.foldl (stepEntry compress now fs.bad) (initSt fs) with err := true } := by
    rw [runFold, hlist, List.foldl_append, List.foldl_cons,
      stepEntry_bad compress now fs.bad _ p src hpre helig hsrc hnoskip hbadp]
    exact fold_of_err compress now fs.bad l2 _ rfl
  have hout : gzip_web_files compress now fs
      = { store := (l1.foldl (stepEntry compress now fs.bad) (initSt fs)).store,
          out := (l1.foldl (stepEntry compress now fs.bad) (initSt fs)).out,
          err := true } := by
    rw [gzip_web_files, if_neg (by simp [hdir]), hrun, if_pos rfl]
  rw [hout]
  exact ⟨rfl, rfl, rfl⟩

theorem C7_error_propagates_witness :
    (gzip_web_files idC 4 fsErr).err = true ∧
    (gzip_web_files idC 4 fsErr).store
      = (List.foldl (stepEntry idC 4 fsErr.bad) (initSt fsErr) []).store ∧
    (gzip_web_files idC 4 fsErr).out
      = (List.foldl (stepEntry idC 4 fsErr.bad) (initSt fsErr) []).out :=
  C7_error_propagates idC 4 fsErr [] [] aCss ⟨[1], 0⟩ rfl (by decide) (by decide)
    (by decide) rfl (by decide) (by decide)

/-- Claim C5: if the root directory does not exist, `gzip_web_files` returns
normally, creates no files, and only reports a warning line. -/
theorem C5_missing_dir (compress : List Nat → List Nat) (now : Int) (fs : FS)
    (hdir : fs.dirExists = false) :
    gzip_web_files compress now fs =
      { store := fs.store, out := [Line.warnMissing], err := false } := by
  rw [gzip_web_files, if_pos hdir]

theorem C5_missing_dir_witness :
    gzip_web_files idC 0 fsNoDir =
      { store := fsNoDir.store, out := [Line.warnMissing], err := false } :=
  C5_missing_dir idC 0 fsNoDir rfl

/-- Claim C8: for every eligible source, the target artifact path of line 27 is
the source path with `".gz"` appended after its extension, and distinct
assets map to distinct artifact paths. -/
theorem C8_artifact_path (p q : List Char)
    (hp : pathSuffixL p ∈ extensions) (hq : pathSuffixL q ∈ extensions) :
    gzPathL p = p ++ gzE ∧ (gzPathL p = gzPathL q → p = q) :=
  ⟨gzPath_eq p hp, fun h => gzPathL_inj p q hp hq h⟩

theorem C8_artifact_path_witness :
    gzPathL aCss = aCss ++ gzE ∧ (gzPathL aCss = gzPathL aCss → aCss = aCss) :=
  C8_artifact_path aCss aCss (by decide) (by decide)

/-- Claim C9: the run writes only at artifact paths of eligible listed files;
the binding of every other path — in particular every source file — is
unchanged, and nothing is deleted. -/
theorem C9_frame (compress : List Nat → List Nat) (now : Int) (fs : FS) (w : List Char)
    (h : ∀ q, (q, true) ∈ fs.listing → pathSuffixL q ∈ extensions → w ≠ q ++ gzE) :
    statOf w (gzip_web_files compress now fs).store = statOf w fs.store := by
  apply run_stat_stable
  intro q hq hqe hcontra
  exact h q hq hqe (hcontra.symm.trans (gzPath_eq q hqe))

theorem C9_frame_witness :
    statOf aCss (gzip_web_files idC 9 fsA).store = statOf aCss fsA.store :=
  C9_frame idC 9 fsA aCss (by
    intro q hq _
    have hqa : q = aCss := congrArg Prod.fst (List.mem_singleton.mp hq)
    subst hqa
    decide)

/-- Claim C4 counterexample: a file whose extension is outside the allow-set can
still be touched — when `a.css` is stale, its artifact `a.css.gz`, itself a
file of the tree with extension `gz`, is overwritten by the run. -/
theorem C4_cex :
    pathSuffixL aCssGz ∉ extensions ∧
    statOf aCssGz (gzip_web_files idC 10 fsTouch).store ≠ statOf aCssGz fsTouch.store := by
  constructor
  · decide
  · decide

/-- Claim C4 amended: a file `w` whose extension is outside the allow-set is
never compressed — no `".gz"` artifact is created for it (first conjunct) —
and its own bytes are unchanged when it is not the artifact path of any
eligible listed source (second conjunct, covering in particular orphan
`".gz"` files); when `w` is the artifact path of an eligible listed source,
it is unchanged if that source is skipped as fresh and otherwise it is
overwritten as that source's artifact (third conjunct). -/
theorem C4_amended (compress : List Nat → List Nat) (now : Int) (fs : FS) (w : List Char)
    (hw : pathSuffixL w ∉ extensions) :
    statOf (w ++ gzE) (gzip_web_files compress now fs).store
      = statOf (w ++ gzE) fs.store ∧
    ((∀ q, (q, true) ∈ fs.listing → pathSuffixL q ∈ extensions → w ≠ q ++ gzE) →
      statOf w (gzip_web_files compress now fs).store = statOf w fs.store) ∧
    (∀ q src, fs.dirExists = true → fs.bad = [] →
      (fs.listing.map Prod.fst).Nodup → WFStore fs.store fs.listing →
      (q, true) ∈ fs.listing → pathSuffixL q ∈ extensions → w = q ++ gzE →
      statOf q fs.store = some src →
      statOf w (gzip_web_files compress now fs).store =
        (if isSkip fs.store q src then statOf w fs.store
         else some ⟨compress src.content, now⟩)) := by
  refine ⟨?_, ?_, ?_⟩
  · apply run_stat_stable
    intro q hq hqe hcontra
    rw [gzPath_eq q hqe] at hcontra
    exact hw (List.append_cancel_right hcontra ▸ hqe)
  · intro h
    apply run_stat_stable
    intro q hq hqe hcontra
    exact h q hq hqe (hcontra.symm.trans (gzPath_eq q hqe))
  · intro q src hdir hbad hnd hwf hq hqe hweq hsrc
    have h := (run_gz compress now fs q src hdir hbad hq hnd hqe hwf hsrc).2.1
    rw [gzPath_eq q hqe, ← hweq] at h
    exact h

theorem C4_amended_witness :
    statOf (aCssGz ++ gzE) (gzip_web_files idC 10 fsTouch).store
      = statOf (aCssGz ++ gzE) fsTouch.store ∧
    statOf aCssGz (gzip_web_files idC 10 fsTouch).store = some ⟨idC [1], 10⟩ := by
  have h := C4_amended idC 10 fsTouch aCssGz (by decide)
  refine ⟨h.1, ?_⟩
  have h2 := h.2.2 aCss ⟨[1], 5⟩ rfl rfl (by decide) (by unfold WFStore; decide)
    (by decide) (by decide) rfl (by decide)
  rw [show isSkip fsTouch.store aCss ⟨[1], 5⟩ = false from by decide,
    if_neg Bool.false_ne_true] at h2
  exact h2

end Lume
